import Mathlib

/-
Verification of the sapling grammar validator.

The development shallowly embeds the grammar data model (`grammar.rs`) and the
validation passes (`validate.rs`) of the sapling crate.  Rust `HashMap`s keyed
by rule name are modelled as association lists `List (String × Rule)`; the
Rust iteration order of `rules.keys()` is the list order (the entry point for
the reachability pass is the first list entry, matching `keys().next()`).
Warning side channels (`eprintln!`) are modelled by returning the list of
warned rule names (or name/level pairs) instead of printing them.
-/

/-- The `RuleType` enum of `grammar.rs`: the discriminant of a rule node. -/
inductive RuleType where
  | Blank
  | String
  | Pattern
  | Symbol
  | Choice
  | Seq
  | Repeat
  | Repeat1
  | Prec
  | PrecLeft
  | PrecRight
  | PrecDynamic
  | Field
  | Alias
  | Token
  | ImmediateToken
  | Reserved
deriving DecidableEq, Repr

/-- The `RuleValue` enum of `grammar.rs`: a string or integer payload.
Rust stores an `i32`; no arithmetic is ever performed on it by the validator,
so it is modelled as `Int`. -/
inductive RuleValue where
  | String (s : String)
  | Integer (i : Int)
deriving DecidableEq, Repr

/-- The `Rule` struct of `grammar.rs`: a rule node with a discriminant and
optional payload fields.  All eight fields of the Rust struct are kept, in
declaration order. -/
inductive Rule where
  | mk (rule_type : RuleType) (value : Option RuleValue) (name : Option String)
       (content : Option Rule) (members : Option (List Rule))
       (named : Option Bool) (flags : Option String) (context_name : Option String)

/-- Projection for the `rule_type` field of `Rule`. -/
def Rule.rule_type : Rule → RuleType
  | .mk rt _ _ _ _ _ _ _ => rt

/-- Projection for the `value` field of `Rule`. -/
def Rule.value : Rule → Option RuleValue
  | .mk _ v _ _ _ _ _ _ => v

/-- Projection for the `name` field of `Rule`. -/
def Rule.name : Rule → Option String
  | .mk _ _ n _ _ _ _ _ => n

/-- Projection for the `content` field of `Rule`. -/
def Rule.content : Rule → Option Rule
  | .mk _ _ _ c _ _ _ _ => c

/-- Projection for the `members` field of `Rule`. -/
def Rule.members : Rule → Option (List Rule)
  | .mk _ _ _ _ m _ _ _ => m

/-- The `Precedence` enum of `grammar.rs` (a literal or a symbolic
precedence entry in the grammar-level `precedences` field). -/
inductive Precedence where
  | String (s : String)
  | Symbol (name : String)
deriving DecidableEq, Repr

/-- The `Grammar` struct of `grammar.rs`.  `rules` is the `HashMap` from rule
name to `Rule`, modelled as an association list whose order is the map's
iteration order. -/
structure Grammar where
  schema : Option String
  name : String
  inherits : Option String
  rules : List (String × Rule)
  extras : Option (List Rule)
  externals : Option (List Rule)
  inline : Option (List String)
  precedences : Option (List (List Precedence))
  conflicts : Option (List (List String))
  reserved : Option (List (String × List Rule))
  word : Option String
  supertypes : Option (List String)

/-- The `ValidationError` struct of `validate.rs`: a message string. -/
structure ValidationError where
  message : String
deriving DecidableEq, Repr

/-- `Rule::is_terminal` of `grammar.rs`. -/
def Rule.is_terminal (self : Rule) : Bool :=
  match self.rule_type with
  | .String | .Pattern => true
  | _ => false

/-- `Rule::is_symbol` of `grammar.rs`. -/
def Rule.is_symbol (self : Rule) : Bool :=
  match self.rule_type with
  | .Symbol => true
  | _ => false

/-- `Rule::symbol_name` of `grammar.rs`. -/
def Rule.symbol_name (self : Rule) : Option String :=
  if self.is_symbol then self.name else none

/-- `Rule::precedence` of `grammar.rs`: the numeric value for the four
`PREC`-family discriminants when the payload is an integer, `None`
otherwise. -/
def Rule.precedence (self : Rule) : Option Int :=
  match self.rule_type with
  | .Prec | .PrecLeft | .PrecRight | .PrecDynamic =>
    match self.value with
    | some (.Integer i) => some i
    | some (.String _) => none
    | none => none
  | _ => none

/-- `Rule::string_value` of `grammar.rs`. -/
def Rule.string_value (self : Rule) : Option String :=
  match self.rule_type with
  | .String =>
    match self.value with
    | some (.String s) => some s
    | some (.Integer _) => none
    | none => none
  | _ => none

/-- `Rule::pattern_value` of `grammar.rs`. -/
def Rule.pattern_value (self : Rule) : Option String :=
  match self.rule_type with
  | .Pattern =>
    match self.value with
    | some (.String s) => some s
    | some (.Integer _) => none
    | none => none
  | _ => none

/-- The ASCII single-quote character used by the Rust error format string. -/
def squoteChar : Char := Char.ofNat 39

/-- The single-quote as a one-character string. -/
def squote : String := String.singleton squoteChar

/-- The message built by `check_rule_symbols` in `validate.rs` for an
undefined symbol `name` referenced from rule `context`. -/
def undefinedSymbolMessage (name context : String) : String :=
  "undefined symbol " ++ squote ++ name ++ squote ++
    " referenced in rule " ++ squote ++ context ++ squote

/-- `check_rule_symbols` of `validate.rs`: walk one rule body; error on the
first `Symbol` whose `name` is present but not in `defined`.  The `defined`
set (a `HashSet` of the rule-map keys in Rust) is a list tested with
`contains`. -/
def check_rule_symbols (rule : Rule) (defined : List String) (context : String) :
    Except ValidationError Unit :=
  match rule with
  | .mk rt _v name content members _ _ _ =>
    match rt with
    | .Symbol =>
      match name with
      | some n =>
        if defined.contains n then .ok ()
        else .error ⟨undefinedSymbolMessage n context⟩
      | none => .ok ()
    | .Choice | .Seq =>
      match members with
      | some ms => goMembers ms defined context
      | none => .ok ()
    | .Repeat | .Repeat1 | .Prec | .PrecLeft | .PrecRight | .Field | .Alias =>
      match content with
      | some c => check_rule_symbols c defined context
      | none => .ok ()
    | .Blank | .String | .Pattern | .Token | .ImmediateToken | .Reserved | .PrecDynamic =>
      .ok ()
where
  goMembers (ms : List Rule) (defined : List String) (context : String) :
      Except ValidationError Unit :=
    match ms with
    | [] => .ok ()
    | m :: rest => do
        check_rule_symbols m defined context
        goMembers rest defined context

/-- `check_undefined_symbols` of `validate.rs`: run `check_rule_symbols` on
every rule of the grammar, with the key set of `rules` as the defined set. -/
def check_undefined_symbols (grammar : Grammar) : Except ValidationError Unit :=
  goRules grammar.rules (grammar.rules.map Prod.fst)
where
  goRules (entries : List (String × Rule)) (defined : List String) :
      Except ValidationError Unit :=
    match entries with
    | [] => .ok ()
    | (rule_name, rule) :: rest => do
        check_rule_symbols rule defined rule_name
        goRules rest defined

/-- `HashMap::get` on the association-list model of `rules`. -/
def lookupRule (rules : List (String × Rule)) (n : String) : Option Rule :=
  match rules with
  | [] => none
  | (k, r) :: rest => if k = n then some r else lookupRule rest n

/-- `collect_referenced_symbols` of `validate.rs`: append, in traversal
order, the name of every `Symbol` node reached by the same walk as
`check_rule_symbols` (the Rust code pushes onto a `&mut Vec<String>`). -/
def collect_referenced_symbols (rule : Rule) (symbols : List String) : List String :=
  match rule with
  | .mk rt _v name content members _ _ _ =>
    match rt with
    | .Symbol =>
      match name with
      | some n => symbols ++ [n]
      | none => symbols
    | .Choice | .Seq =>
      match members with
      | some ms => goMembers ms symbols
      | none => symbols
    | .Repeat | .Repeat1 | .Prec | .PrecLeft | .PrecRight | .Field | .Alias =>
      match content with
      | some c => collect_referenced_symbols c symbols
      | none => symbols
    | .Blank | .String | .Pattern | .Token | .ImmediateToken | .Reserved | .PrecDynamic =>
      symbols
where
  goMembers (ms : List Rule) (symbols : List String) : List String :=
    match ms with
    | [] => symbols
    | m :: rest => goMembers rest (collect_referenced_symbols m symbols)

/-- Number of keys not yet in the visited set: the termination measure of the
reachability worklist loop. -/
def countNotVisited (keys visited : List String) : Nat :=
  (keys.filter (fun k => !visited.contains k)).length

/-- The worklist loop of `check_unreachable_rules` in `validate.rs`:
pop a name; skip it if already visited, otherwise mark it visited and, if it
is a rule, push the symbols its body references.  The Rust `Vec` is popped
from its back; the stack is modelled head-first, so a batch of pushed symbols
appears reversed at the head.  Only the final visited set is ever consumed,
and it does not depend on that orientation. -/
def reachLoop (rules : List (String × Rule)) (reachable : List String)
    (to_visit : List String) : List String :=
  match to_visit with
  | [] => reachable
  | rule_name :: rest =>
    if rule_name ∈ reachable then reachLoop rules reachable rest
    else
      match hl : lookupRule rules rule_name with
      | some rule =>
          reachLoop rules (rule_name :: reachable)
            ((collect_referenced_symbols rule []).reverse ++ rest)
      | none => reachLoop rules (rule_name :: reachable) rest
termination_by (countNotVisited (rules.map Prod.fst) reachable, to_visit.length)
decreasing_by
  · apply Prod.Lex.right
    exact Nat.lt_succ_self _
  · apply Prod.Lex.left
    -- the popped name is a key and was not visited, so the count drops
    rename_i hnv
    have hmem : rule_name ∈ rules.map Prod.fst := by
      clear hnv
      induction rules with
      | nil => simp [lookupRule] at hl
      | cons p rest2 ih =>
        obtain ⟨k, rl⟩ := p
        simp only [lookupRule] at hl
        by_cases hk : k = rule_name
        · simp [hk]
        · simp only [hk, if_false] at hl
          simp [ih hl]
    have hsub : List.Sublist
        ((rules.map Prod.fst).filter (fun k => !(rule_name :: reachable).contains k))
        ((rules.map Prod.fst).filter (fun k => !reachable.contains k)) := by
      apply List.monotone_filter_right
      intro k hk
      simp only [List.contains_cons, Bool.not_or, Bool.and_eq_true] at hk
      exact hk.2
    have hle := hsub.length_le
    rcases Nat.lt_or_ge (countNotVisited (rules.map Prod.fst) (rule_name :: reachable))
        (countNotVisited (rules.map Prod.fst) reachable) with hfin | hge
    · exact hfin
    · exfalso
      have heq := hsub.eq_of_length (Nat.le_antisymm hle hge)
      have hmm : rule_name ∈ (rules.map Prod.fst).filter (fun k => !reachable.contains k) := by
        refine List.mem_filter.mpr ⟨hmem, ?_⟩
        simpa [List.elem_eq_mem] using hnv
      rw [← heq] at hmm
      have hbad := (List.mem_filter.mp hmm).2
      simp [List.contains_cons] at hbad
  · -- the popped name is not a key, so the count is unchanged and the stack shrinks
    have hnk : rule_name ∉ rules.map Prod.fst := by
      intro hmem2
      rcases List.mem_map.mp hmem2 with ⟨⟨k, r⟩, hkr, hk⟩
      subst hk
      clear hmem2
      induction rules with
      | nil => cases hkr
      | cons p rest2 ih =>
        obtain ⟨k2, r2⟩ := p
        simp only [lookupRule] at hl
        by_cases hk2 : k2 = k
        · simp [hk2] at hl
        · simp only [hk2, if_false] at hl
          cases hkr with
          | head => exact hk2 rfl
          | tail _ h => exact ih h hl
    have hsame : countNotVisited (rules.map Prod.fst) (rule_name :: reachable) =
        countNotVisited (rules.map Prod.fst) reachable := by
      unfold countNotVisited
      congr 1
      apply List.filter_congr
      intro k hk
      have hka : ¬ (k = rule_name) := fun h => hnk (h ▸ hk)
      simp [List.contains_cons, hka]
    rw [hsame]
    apply Prod.Lex.right
    exact Nat.lt_succ_self _

/-- The `grammar.inline.as_ref().is_some_and(|v| v.contains(rule_name))`
test of `check_unreachable_rules`. -/
def inline_contains (grammar : Grammar) (rule_name : String) : Bool :=
  match grammar.inline with
  | some v => v.contains rule_name
  | none => false

/-- `check_unreachable_rules` of `validate.rs`.  The entry point is the first
key of `rules` (Rust: `keys().next()`); an empty rule map is a hard error.
The warning side channel is modelled by returning the list of warned rule
names, in key order. -/
def check_unreachable_rules (grammar : Grammar) : Except ValidationError (List String) :=
  match grammar.rules with
  | [] => .error ⟨"grammar has no rules"⟩
  | (entry_point, _) :: _ =>
    let reachable := reachLoop grammar.rules [] [entry_point]
    .ok ((grammar.rules.map Prod.fst).filter (fun rule_name =>
      !reachable.contains rule_name && !inline_contains grammar rule_name))

/-- `has_immediate_left_recursion` of `validate.rs`. -/
def has_immediate_left_recursion (rule : Rule) (target : String) : Bool :=
  match rule with
  | .mk rt _v name content members _ _ _ =>
    match rt with
    | .Symbol =>
      match name with
      | some n => n == target
      | none => false
    | .Seq =>
      match members with
      | some ms =>
        match ms with
        | [] => false
        | first :: _ => has_immediate_left_recursion first target
      | none => false
    | .Choice =>
      match members with
      | some ms => anyMember ms target
      | none => false
    | .Prec | .PrecLeft | .PrecRight | .Field | .Alias =>
      match content with
      | some c => has_immediate_left_recursion c target
      | none => false
    | _ => false
where
  anyMember (ms : List Rule) (target : String) : Bool :=
    match ms with
    | [] => false
    | m :: rest => has_immediate_left_recursion m target || anyMember rest target

/-- `check_left_recursion` of `validate.rs`: the info side channel is
modelled by returning the names of the rules reported as left-recursive, in
key order. -/
def check_left_recursion (grammar : Grammar) : List String :=
  goRules grammar.rules
where
  goRules (entries : List (String × Rule)) : List String :=
    match entries with
    | [] => []
    | (rule_name, rule) :: rest =>
      if has_immediate_left_recursion rule rule_name then rule_name :: goRules rest
      else goRules rest

/-- `collect_precedence_levels` of `validate.rs`.  The Rust code threads a
`HashMap<String, Vec<i32>>` and always pushes onto the entry of the fixed
`context` key, so the per-rule vector is modelled directly as the
accumulated list of levels, appended in push order. -/
def collect_precedence_levels (rule : Rule) (levels : List Int) : List Int :=
  match rule with
  | .mk rt v name content members named flags context_name =>
    match rt with
    | .Prec | .PrecLeft | .PrecRight | .PrecDynamic =>
      let levels1 :=
        match (Rule.mk rt v name content members named flags context_name).precedence with
        | some p => levels ++ [p]
        | none => levels
      match content with
      | some c => collect_precedence_levels c levels1
      | none => levels1
    | .Choice | .Seq =>
      match members with
      | some ms => goMembers ms levels
      | none => levels
    | .Repeat | .Repeat1 | .Field | .Alias =>
      match content with
      | some c => collect_precedence_levels c levels
      | none => levels
    | _ => levels
where
  goMembers (ms : List Rule) (levels : List Int) : List Int :=
    match ms with
    | [] => levels
    | m :: rest => goMembers rest (collect_precedence_levels m levels)

/-- `check_precedence` of `validate.rs`: per rule, collect the precedence
levels of its body; the warning side channel is modelled by returning the
`(rule, levels)` pairs with more than one collected level. -/
def check_precedence (grammar : Grammar) : List (String × List Int) :=
  goRules grammar.rules
where
  goRules (entries : List (String × Rule)) : List (String × List Int) :=
    match entries with
    | [] => []
    | (rule_name, rule) :: rest =>
      let levels := collect_precedence_levels rule []
      if levels.length > 1 then (rule_name, levels) :: goRules rest
      else goRules rest

/-- `validate` of `validate.rs`: the two fallible passes in order, then the
two advisory passes (whose returned warning lists are discarded here, as the
Rust code only prints them). -/
def validate (grammar : Grammar) : Except ValidationError Unit := do
  check_undefined_symbols grammar
  let _warnings ← check_unreachable_rules grammar
  let _info := check_left_recursion grammar
  let _prec := check_precedence grammar
  .ok ()

/-- Spec-side predicate: every `Symbol` node anywhere in the rule tree
(including under wrappers the validator treats as leaves) names a key of the
defined set.  This renders the spec sentence "every `Symbol` reference
resolves to a key in `rules`". -/
def allSymbolsResolved (defined : List String) (rule : Rule) : Bool :=
  match rule with
  | .mk rt _v name content members _ _ _ =>
    (match rt, name with
     | .Symbol, some n => defined.contains n
     | _, _ => true) &&
    (match content with
     | some c => allSymbolsResolved defined c
     | none => true) &&
    (match members with
     | some ms => goMembers defined ms
     | none => true)
where
  goMembers (defined : List String) (ms : List Rule) : Bool :=
    match ms with
    | [] => true
    | m :: rest => allSymbolsResolved defined m && goMembers defined rest

/-- The rule types whose single `content` child is entered by the symbol and
reachability walks of `validate.rs`. -/
def walkContentTypes : List RuleType :=
  [.Repeat, .Repeat1, .Prec, .PrecLeft, .PrecRight, .Field, .Alias]

/-- `OccursSym n r` holds when a `Symbol` node carrying the name `n` sits at
a position of `r` that the `check_rule_symbols` / `collect_referenced_symbols`
walk reaches: at the root, inside a member of a `Choice` or `Seq`, or inside
the `content` child of a `Repeat`, `Repeat1`, `Prec`, `PrecLeft`,
`PrecRight`, `Field` or `Alias` wrapper. -/
inductive OccursSym (n : String) : Rule → Prop where
  | here (v : Option RuleValue) (c : Option Rule) (ms : Option (List Rule))
      (nd : Option Bool) (fl cn : Option String) :
      OccursSym n (.mk .Symbol v (some n) c ms nd fl cn)
  | in_members (rt : RuleType) (hrt : rt = .Choice ∨ rt = .Seq)
      (v : Option RuleValue) (nm : Option String) (c : Option Rule)
      (nd : Option Bool) (fl cn : Option String) (ms : List Rule) (m : Rule)
      (hm : m ∈ ms) (h : OccursSym n m) :
      OccursSym n (.mk rt v nm c (some ms) nd fl cn)
  | in_content (rt : RuleType) (hrt : rt ∈ walkContentTypes)
      (v : Option RuleValue) (nm : Option String) (ms : Option (List Rule))
      (nd : Option Bool) (fl cn : Option String) (c : Rule)
      (h : OccursSym n c) :
      OccursSym n (.mk rt v nm (some c) ms nd fl cn)

/-- Spec-side left-recursion predicate, rendered from the claim: a `Symbol`
equal to the target is left-recursive; a `Seq` is left-recursive iff its
first member is; a `Choice` iff any member is; `Prec`, `PrecLeft`,
`PrecRight`, `Field` and `Alias` iff the wrapped content is; every other
variant is not. -/
def specLeftRecursive (target : String) (rule : Rule) : Bool :=
  match rule with
  | .mk rt _v name content members _ _ _ =>
    match rt with
    | .Symbol => name == some target
    | .Seq =>
      match members with
      | some ms =>
        match ms with
        | [] => false
        | first :: _ => specLeftRecursive target first
      | none => false
    | .Choice =>
      match members with
      | some ms => goAny target ms
      | none => false
    | .Prec | .PrecLeft | .PrecRight | .Field | .Alias =>
      match content with
      | some c => specLeftRecursive target c
      | none => false
    | _ => false
where
  goAny (target : String) (ms : List Rule) : Bool :=
    match ms with
    | [] => false
    | m :: rest => specLeftRecursive target m || goAny target rest

/-- A `Symbol` rule node referencing `n`, all other fields empty. -/
def symR (n : String) : Rule := .mk .Symbol none (some n) none none none none none

/-- A `String` (literal) rule node. -/
def strR (s : String) : Rule := .mk .String (some (.String s)) none none none none none none

/-- A `Blank` rule node. -/
def blankR : Rule := .mk .Blank none none none none none none none

/-- A `Seq` rule node. -/
def seqR (ms : List Rule) : Rule := .mk .Seq none none none (some ms) none none none

/-- A `Choice` rule node. -/
def choiceR (ms : List Rule) : Rule := .mk .Choice none none none (some ms) none none none

/-- A `PrecLeft` rule node with an integer level. -/
def precLeftR (i : Int) (c : Rule) : Rule :=
  .mk .PrecLeft (some (.Integer i)) none (some c) none none none none

/-- A `PrecDynamic` rule node with an integer level. -/
def precDynR (i : Int) (c : Rule) : Rule :=
  .mk .PrecDynamic (some (.Integer i)) none (some c) none none none none

/-- A `Token` rule node wrapping `c`. -/
def tokenR (c : Rule) : Rule := .mk .Token none none (some c) none none none none

/-- An `ImmediateToken` rule node wrapping `c`. -/
def immTokenR (c : Rule) : Rule := .mk .ImmediateToken none none (some c) none none none none

/-- A `Reserved` rule node wrapping `c`. -/
def reservedR (c : Rule) : Rule := .mk .Reserved none none (some c) none none none none

/-- A grammar with the given rule map and no auxiliary metadata. -/
def mkGrammar (rules : List (String × Rule)) : Grammar :=
  ⟨none, "g", none, rules, none, none, none, none, none, none, none, none⟩

/-- A grammar with the given rule map and inline list. -/
def mkGrammarInline (rules : List (String × Rule)) (inl : List String) : Grammar :=
  ⟨none, "g", none, rules, none, none, some inl, none, none, none, none, none⟩

/-- A grammar with an empty rule map. -/
def emptyGrammar : Grammar := mkGrammar []

/-- The spec example `{A: Symbol(B), B: Blank, C: Blank}`, `C` not inline. -/
def gABC : Grammar := mkGrammar [("A", symR "B"), ("B", blankR), ("C", blankR)]

/-- The spec example with `C` declared inline. -/
def gABCinl : Grammar :=
  mkGrammarInline [("A", symR "B"), ("B", blankR), ("C", blankR)] ["C"]

/-- The self-referential rule `H: Symbol(H)` of the termination example. -/
def gH : Grammar := mkGrammar [("H", symR "H")]

/-- A mutually recursive pair of rules. -/
def gMutual : Grammar := mkGrammar [("A", symR "B"), ("B", symR "A")]

/-- The left-recursion spec examples `E` and `F` in one grammar. -/
def gEF : Grammar :=
  mkGrammar
    [("E", choiceR [seqR [symR "E", strR "+", symR "E"], strR "n"]),
     ("F", seqR [strR "(", symR "F", strR ")"])]

/-- The precedence spec example: one rule with levels 1 and 2. -/
def gTwoLevels : Grammar :=
  mkGrammar
    [("G", choiceR [precLeftR 1 (seqR [symR "G", strR "+", symR "G"]),
                    precLeftR 2 (seqR [symR "G", strR "*", symR "G"])])]

/-- A rule using only `PrecLeft(1, ...)`, twice. -/
def gOnes : Grammar :=
  mkGrammar [("G", precLeftR 1 (precLeftR 1 blankR))]

/-- An undefined symbol hidden inside `Token` content. -/
def gTokUndef : Grammar := mkGrammar [("A", tokenR (symR "ghost"))]

/-- An undefined symbol hidden inside `ImmediateToken` content. -/
def gImmUndef : Grammar := mkGrammar [("A", immTokenR (symR "ghost"))]

/-- An undefined symbol hidden inside `Reserved` content. -/
def gResUndef : Grammar := mkGrammar [("A", reservedR (symR "ghost"))]

/-- An undefined symbol hidden inside `PrecDynamic` content. -/
def gPDUndef : Grammar := mkGrammar [("A", precDynR 1 (symR "ghost"))]

/-- A defined rule `B` referenced only from inside `Token` content. -/
def gTokHidden : Grammar := mkGrammar [("A", tokenR (symR "B")), ("B", blankR)]

/-- A `Symbol` rule with an absent name inside a grammar. -/
def gNameless : Grammar :=
  mkGrammar [("A", seqR [.mk .Symbol none none none none none none none, strR "x"])]

/-- A well-formed two-rule grammar used as a success witness. -/
def gOkSample : Grammar :=
  mkGrammar [("A", seqR [symR "B", strR "x"]), ("B", blankR)]

/-- A grammar with an undefined top-level symbol reference. -/
def gUndefSample : Grammar := mkGrammar [("A", seqR [symR "missing"])]

/-- Sequencing two `Except` computations succeeds iff both do. -/
theorem except_seq_ok_iff (a b : Except ValidationError Unit) :
    (do a; b) = .ok () ↔ a = .ok () ∧ b = .ok () := by
  cases a with
  | error e => simp [Bind.bind, Except.bind]
  | ok u => cases u; simp [Bind.bind, Except.bind]

/-- Sequencing two `Except` computations fails iff the first fails or the
first succeeds and the second fails. -/
theorem except_seq_error_iff (a b : Except ValidationError Unit) (e : ValidationError) :
    (do a; b) = .error e ↔ a = .error e ∨ (a = .ok () ∧ b = .error e) := by
  cases a with
  | error e2 => simp [Bind.bind, Except.bind]
  | ok u => cases u; simp [Bind.bind, Except.bind]

/-- An `Except ValidationError Unit` value is success or failure. -/
theorem except_ok_or_error (a : Except ValidationError Unit) :
    a = .ok () ∨ ∃ e, a = .error e := by
  cases a with
  | error e => exact Or.inr ⟨e, rfl⟩
  | ok u => cases u; exact Or.inl rfl

/-- If the member loop of `check_rule_symbols` succeeds, the check succeeds
on every member. -/
theorem goMembers_ok_mem (ms : List Rule) (d : List String) (ctx : String)
    (h : check_rule_symbols.goMembers ms d ctx = .ok ()) :
    ∀ m ∈ ms, check_rule_symbols m d ctx = .ok () := by
  induction ms with
  | nil => intro m hm; cases hm
  | cons m2 rest ih =>
    intro m hm
    rw [show check_rule_symbols.goMembers (m2 :: rest) d ctx =
      (do check_rule_symbols m2 d ctx; check_rule_symbols.goMembers rest d ctx) from rfl] at h
    rcases (except_seq_ok_iff _ _).mp h with ⟨h1, h2⟩
    rcases List.mem_cons.mp hm with rfl | hm2
    · exact h1
    · exact ih h2 m hm2

/-- If the rule loop of `check_undefined_symbols` succeeds, the per-rule
check succeeds on every entry. -/
theorem goRules_ok_mem (entries : List (String × Rule)) (d : List String)
    (h : check_undefined_symbols.goRules entries d = .ok ()) :
    ∀ p ∈ entries, check_rule_symbols p.2 d p.1 = .ok () := by
  induction entries with
  | nil => intro p hp; cases hp
  | cons q rest ih =>
    intro p hp
    obtain ⟨nm, r⟩ := q
    rw [show check_undefined_symbols.goRules ((nm, r) :: rest) d =
      (do check_rule_symbols r d nm; check_undefined_symbols.goRules rest d) from rfl] at h
    rcases (except_seq_ok_iff _ _).mp h with ⟨h1, h2⟩
    rcases List.mem_cons.mp hp with rfl | hp2
    · exact h1
    · exact ih h2 p hp2

/-- Members of a list whose `allSymbolsResolved.goMembers` holds are
themselves resolved. -/
theorem allResolved_goMembers_mem (d : List String) (ms : List Rule)
    (h : allSymbolsResolved.goMembers d ms = true) :
    ∀ m ∈ ms, allSymbolsResolved d m = true := by
  induction ms with
  | nil => intro m hm; cases hm
  | cons m2 rest ih =>
    intro m hm
    rw [show allSymbolsResolved.goMembers d (m2 :: rest) =
      (allSymbolsResolved d m2 && allSymbolsResolved.goMembers d rest) from rfl] at h
    rw [Bool.and_eq_true] at h
    rcases List.mem_cons.mp hm with rfl | hm2
    · exact h.1
    · exact ih h.2 m hm2

/-- A symbol occurring at a walk position of a fully resolved rule is in the
defined set. -/
theorem contains_of_occurs_of_resolved (n : String) (r : Rule) (d : List String)
    (hocc : OccursSym n r) (hres : allSymbolsResolved d r = true) :
    d.contains n = true := by
  induction hocc with
  | here v c ms nd fl cn =>
    cases c <;> cases ms <;> simp_all [allSymbolsResolved]
  | in_members rt hrt v nm c nd fl cn ms m hm h ih =>
    apply ih
    apply allResolved_goMembers_mem d ms _ m hm
    rcases hrt with rfl | rfl <;> cases c <;> cases nm <;>
      simp_all [allSymbolsResolved]
  | in_content rt hrt v nm ms nd fl cn c h ih =>
    apply ih
    simp only [walkContentTypes, List.mem_cons, List.not_mem_nil, or_false] at hrt
    rcases hrt with rfl | rfl | rfl | rfl | rfl | rfl | rfl <;> cases ms <;> cases nm <;>
      simp_all [allSymbolsResolved]

mutual

/-- Characterisation of the failures of `check_rule_symbols`: every error is
the canonical undefined-symbol message for a symbol occurring at a walk
position of the rule and missing from the defined set. -/
theorem check_err_exists : ∀ (rule : Rule) (d : List String) (ctx : String)
    (e : ValidationError), check_rule_symbols rule d ctx = .error e →
    ∃ n, OccursSym n rule ∧ d.contains n = false ∧ e = ⟨undefinedSymbolMessage n ctx⟩
  | .mk .Symbol v (some n) c ms nd fl cn, d, ctx, e, h => by
    simp only [check_rule_symbols] at h
    by_cases hc : n ∈ d
    · simp [hc] at h
    · refine ⟨n, OccursSym.here v c ms nd fl cn, ?_, ?_⟩
      · simp [List.elem_eq_mem, hc]
      · simp [hc] at h
        exact h.symm
  | .mk .Symbol v none c ms nd fl cn, d, ctx, e, h => by
    simp [check_rule_symbols] at h
  | .mk .Choice v nm c (some ms) nd fl cn, d, ctx, e, h => by
    simp only [check_rule_symbols] at h
    obtain ⟨n, m, hm, hocc, hcon, he⟩ := goMembers_err_exists ms d ctx e h
    exact ⟨n, OccursSym.in_members _ (Or.inl rfl) v nm c nd fl cn ms m hm hocc, hcon, he⟩
  | .mk .Choice v nm c none nd fl cn, d, ctx, e, h => by
    simp [check_rule_symbols] at h
  | .mk .Seq v nm c (some ms) nd fl cn, d, ctx, e, h => by
    simp only [check_rule_symbols] at h
    obtain ⟨n, m, hm, hocc, hcon, he⟩ := goMembers_err_exists ms d ctx e h
    exact ⟨n, OccursSym.in_members _ (Or.inr rfl) v nm c nd fl cn ms m hm hocc, hcon, he⟩
  | .mk .Seq v nm c none nd fl cn, d, ctx, e, h => by
    simp [check_rule_symbols] at h
  | .mk .Repeat v nm (some c) ms nd fl cn, d, ctx, e, h => by
    simp only [check_rule_symbols] at h
    obtain ⟨n, hocc, hcon, he⟩ := check_err_exists c d ctx e h
    exact ⟨n, OccursSym.in_content _ (by decide) v nm ms nd fl cn c hocc, hcon, he⟩
  | .mk .Repeat v nm none ms nd fl cn, d, ctx, e, h => by
    simp [check_rule_symbols] at h
  | .mk .Repeat1 v nm (some c) ms nd fl cn, d, ctx, e, h => by
    simp only [check_rule_symbols] at h
    obtain ⟨n, hocc, hcon, he⟩ := check_err_exists c d ctx e h
    exact ⟨n, OccursSym.in_content _ (by decide) v nm ms nd fl cn c hocc, hcon, he⟩
  | .mk .Repeat1 v nm none ms nd fl cn, d, ctx, e, h => by
    simp [check_rule_symbols] at h
  | .mk .Prec v nm (some c) ms nd fl cn, d, ctx, e, h => by
    simp only [check_rule_symbols] at h
    obtain ⟨n, hocc, hcon, he⟩ := check_err_exists c d ctx e h
    exact ⟨n, OccursSym.in_content _ (by decide) v nm ms nd fl cn c hocc, hcon, he⟩
  | .mk .Prec v nm none ms nd fl cn, d, ctx, e, h => by
    simp [check_rule_symbols] at h
  | .mk .PrecLeft v nm (some c) ms nd fl cn, d, ctx, e, h => by
    simp only [check_rule_symbols] at h
    obtain ⟨n, hocc, hcon, he⟩ := check_err_exists c d ctx e h
    exact ⟨n, OccursSym.in_content _ (by decide) v nm ms nd fl cn c hocc, hcon, he⟩
  | .mk .PrecLeft v nm none ms nd fl cn, d, ctx, e, h => by
    simp [check_rule_symbols] at h
  | .mk .PrecRight v nm (some c) ms nd fl cn, d, ctx, e, h => by
    simp only [check_rule_symbols] at h
    obtain ⟨n, hocc, hcon, he⟩ := check_err_exists c d ctx e h
    exact ⟨n, OccursSym.in_content _ (by decide) v nm ms nd fl cn c hocc, hcon, he⟩
  | .mk .PrecRight v nm none ms nd fl cn, d, ctx, e, h => by
    simp [check_rule_symbols] at h
  | .mk .Field v nm (some c) ms nd fl cn, d, ctx, e, h => by
    simp only [check_rule_symbols] at h
    obtain ⟨n, hocc, hcon, he⟩ := check_err_exists c d ctx e h
    exact ⟨n, OccursSym.in_content _ (by decide) v nm ms nd fl cn c hocc, hcon, he⟩
  | .mk .Field v nm none ms nd fl cn, d, ctx, e, h => by
    simp [check_rule_symbols] at h
  | .mk .Alias v nm (some c) ms nd fl cn, d, ctx, e, h => by
    simp only [check_rule_symbols] at h
    obtain ⟨n, hocc, hcon, he⟩ := check_err_exists c d ctx e h
    exact ⟨n, OccursSym.in_content _ (by decide) v nm ms nd fl cn c hocc, hcon, he⟩
  | .mk .Alias v nm none ms nd fl cn, d, ctx, e, h => by
    simp [check_rule_symbols] at h
  | .mk .Blank v nm c ms nd fl cn, d, ctx, e, h => by
    simp [check_rule_symbols] at h
  | .mk .String v nm c ms nd fl cn, d, ctx, e, h => by
    simp [check_rule_symbols] at h
  | .mk .Pattern v nm c ms nd fl cn, d, ctx, e, h => by
    simp [check_rule_symbols] at h
  | .mk .Token v nm c ms nd fl cn, d, ctx, e, h => by
    simp [check_rule_symbols] at h
  | .mk .ImmediateToken v nm c ms nd fl cn, d, ctx, e, h => by
    simp [check_rule_symbols] at h
  | .mk .Reserved v nm c ms nd fl cn, d, ctx, e, h => by
    simp [check_rule_symbols] at h
  | .mk .PrecDynamic v nm c ms nd fl cn, d, ctx, e, h => by
    simp [check_rule_symbols] at h

/-- Failure characterisation for the member loop of `check_rule_symbols`. -/
theorem goMembers_err_exists : ∀ (ms : List Rule) (d : List String) (ctx : String)
    (e : ValidationError), check_rule_symbols.goMembers ms d ctx = .error e →
    ∃ n m, m ∈ ms ∧ OccursSym n m ∧ d.contains n = false ∧
      e = ⟨undefinedSymbolMessage n ctx⟩
  | [], d, ctx, e, h => by simp [check_rule_symbols.goMembers] at h
  | m :: rest, d, ctx, e, h => by
    rw [show check_rule_symbols.goMembers (m :: rest) d ctx =
      (do check_rule_symbols m d ctx; check_rule_symbols.goMembers rest d ctx) from rfl] at h
    rcases (except_seq_error_iff _ _ _).mp h with h1 | ⟨_h1, h2⟩
    · obtain ⟨n, hocc, hcon, he⟩ := check_err_exists m d ctx e h1
      exact ⟨n, m, List.mem_cons_self m rest, hocc, hcon, he⟩
    · obtain ⟨n, m2, hm2, hocc, hcon, he⟩ := goMembers_err_exists rest d ctx e h2
      exact ⟨n, m2, List.mem_cons_of_mem _ hm2, hocc, hcon, he⟩

end

/-- A symbol occurring at a walk position and missing from the defined set
makes `check_rule_symbols` fail. -/
theorem check_ne_ok_of_occurs (n : String) (r : Rule) (d : List String) (ctx : String)
    (hocc : OccursSym n r) (hcon : d.contains n = false) :
    check_rule_symbols r d ctx ≠ .ok () := by
  induction hocc with
  | here v c ms nd fl cn =>
    intro h
    simp only [check_rule_symbols] at h
    have : ¬ n ∈ d := by
      intro hmem
      rw [show d.contains n = decide (n ∈ d) from List.elem_eq_mem n d] at hcon
      simp [hmem] at hcon
    simp [this] at h
  | in_members rt hrt v nm c nd fl cn ms m hm h ih =>
    intro hok
    apply ih
    rcases hrt with rfl | rfl <;>
      (simp only [check_rule_symbols] at hok; exact goMembers_ok_mem ms d ctx hok m hm)
  | in_content rt hrt v nm ms nd fl cn c h ih =>
    intro hok
    apply ih
    simp only [walkContentTypes, List.mem_cons, List.not_mem_nil, or_false] at hrt
    rcases hrt with rfl | rfl | rfl | rfl | rfl | rfl | rfl <;>
      (simp only [check_rule_symbols] at hok; exact hok)

/-- Success of the rule loop of `check_undefined_symbols` propagates from
success on each entry, and conversely. -/
theorem goRules_ok_of_all (entries : List (String × Rule)) (d : List String)
    (h : ∀ p ∈ entries, check_rule_symbols p.2 d p.1 = .ok ()) :
    check_undefined_symbols.goRules entries d = .ok () := by
  induction entries with
  | nil => rfl
  | cons q rest ih =>
    obtain ⟨nm, r⟩ := q
    rw [show check_undefined_symbols.goRules ((nm, r) :: rest) d =
      (do check_rule_symbols r d nm; check_undefined_symbols.goRules rest d) from rfl]
    apply (except_seq_ok_iff _ _).mpr
    exact ⟨h (nm, r) (List.mem_cons_self _ _),
      ih (fun p hp => h p (List.mem_cons_of_mem _ hp))⟩

/-- Failure characterisation for the rule loop of `check_undefined_symbols`:
any error is the canonical message for an undefined symbol occurring in one
of the listed rule bodies, named by its context rule. -/
theorem goRules_err_exists (entries : List (String × Rule)) (d : List String)
    (e : ValidationError) (h : check_undefined_symbols.goRules entries d = .error e) :
    ∃ ctx r n, (ctx, r) ∈ entries ∧ OccursSym n r ∧ d.contains n = false ∧
      e = ⟨undefinedSymbolMessage n ctx⟩ := by
  induction entries with
  | nil => simp [check_undefined_symbols.goRules] at h
  | cons q rest ih =>
    obtain ⟨nm, r⟩ := q
    rw [show check_undefined_symbols.goRules ((nm, r) :: rest) d =
      (do check_rule_symbols r d nm; check_undefined_symbols.goRules rest d) from rfl] at h
    rcases (except_seq_error_iff _ _ _).mp h with h1 | ⟨_h1, h2⟩
    · obtain ⟨n, hocc, hcon, he⟩ := check_err_exists r d nm e h1
      exact ⟨nm, r, n, List.mem_cons_self _ _, hocc, hcon, he⟩
    · obtain ⟨ctx, r2, n, hmem, hocc, hcon, he⟩ := ih h2
      exact ⟨ctx, r2, n, List.mem_cons_of_mem _ hmem, hocc, hcon, he⟩

/-- A fully resolved rule passes `check_rule_symbols`. -/
theorem check_ok_of_resolved (r : Rule) (d : List String) (ctx : String)
    (hres : allSymbolsResolved d r = true) :
    check_rule_symbols r d ctx = .ok () := by
  rcases except_ok_or_error (check_rule_symbols r d ctx) with hok | ⟨e, he⟩
  · exact hok
  · exfalso
    obtain ⟨n, hocc, hcon, _⟩ := check_err_exists r d ctx e he
    have := contains_of_occurs_of_resolved n r d hocc hres
    rw [this] at hcon
    cases hcon

/-- A grammar with at least one rule never fails the reachability pass. -/
theorem check_unreachable_ok_of_ne (g : Grammar) (hne : g.rules ≠ []) :
    ∃ w, check_unreachable_rules g = .ok w := by
  cases hr : g.rules with
  | nil => exact absurd hr hne
  | cons p rest =>
    obtain ⟨e0, r0⟩ := p
    refine ⟨(g.rules.map Prod.fst).filter (fun rule_name =>
      !(reachLoop g.rules [] [e0]).contains rule_name &&
        !inline_contains g rule_name), ?_⟩
    simp [check_unreachable_rules, hr]

/-- `validate` succeeds when the symbol pass succeeds and the rule map is
non-empty. -/
theorem validate_ok_of (g : Grammar) (hcus : check_undefined_symbols g = .ok ())
    (hne : g.rules ≠ []) : validate g = .ok () := by
  obtain ⟨w, hw⟩ := check_unreachable_ok_of_ne g hne
  simp [validate, hcus, hw, Bind.bind, Except.bind]

/-- `validate` propagates a failure of the symbol pass unchanged. -/
theorem validate_err_of (g : Grammar) (e : ValidationError)
    (hcus : check_undefined_symbols g = .error e) : validate g = .error e := by
  simp [validate, hcus, Bind.bind, Except.bind]

/-- Claim C1, amended: for every grammar with a non-empty rule map in which
every `Symbol` reference resolves to a key of `rules`, `validate` returns
success.  (The original claim omitted the non-emptiness condition: on an
empty rule map the `ValidationError` is produced by the entry-point
selection of the reachability pass, not by Pass A.) -/
theorem c1_validate_ok_of_resolved (g : Grammar) (hne : g.rules ≠ [])
    (hres : ∀ p ∈ g.rules, allSymbolsResolved (g.rules.map Prod.fst) p.2 = true) :
    validate g = .ok () := by
  apply validate_ok_of g _ hne
  apply goRules_ok_of_all
  intro p hp
  exact check_ok_of_resolved _ _ _ (hres p hp)

/-- Witness for C1: a concrete resolved two-rule grammar validates. -/
theorem c1_validate_ok_of_resolved_witness : validate gOkSample = .ok () :=
  c1_validate_ok_of_resolved gOkSample (List.cons_ne_nil _ _) (by decide)

/-- Counterexample for C1 as stated: the empty grammar has no `Symbol`
reference at all (so every reference vacuously resolves), yet `validate`
fails, and the error is the reachability pass's entry-point error, not an
undefined-symbol error of Pass A. -/
theorem c1_counterexample :
    emptyGrammar.rules = [] ∧
    validate emptyGrammar = .error ⟨"grammar has no rules"⟩ := by
  constructor
  · rfl
  · rfl

/-- Claim C2, amended: if a grammar contains an undefined `Symbol` reference
at a position reached by Pass A's walk (i.e. not strictly inside the content
of a `Token`, `ImmediateToken`, `Reserved` or `PrecDynamic` wrapper), then
`validate` fails, and the failure is the canonical message naming some
referencing rule together with the undefined symbol it references, both
names appearing verbatim in the message. -/
theorem c2_validate_err_of_undefined (g : Grammar) (nm : String) (r : Rule) (n : String)
    (hmem : (nm, r) ∈ g.rules) (hocc : OccursSym n r)
    (hundef : (g.rules.map Prod.fst).contains n = false) :
    ∃ ctx n2 r2, (ctx, r2) ∈ g.rules ∧ OccursSym n2 r2 ∧
      (g.rules.map Prod.fst).contains n2 = false ∧
      validate g = .error ⟨undefinedSymbolMessage n2 ctx⟩ ∧
      ∃ s1 s2 s3, undefinedSymbolMessage n2 ctx = s1 ++ n2 ++ s2 ++ ctx ++ s3 := by
  rcases except_ok_or_error (check_undefined_symbols g) with hok | ⟨e, he⟩
  · exfalso
    have hall := goRules_ok_mem g.rules (g.rules.map Prod.fst) hok (nm, r) hmem
    exact check_ne_ok_of_occurs n r _ nm hocc hundef hall
  · obtain ⟨ctx, r2, n2, hmem2, hocc2, hcon2, he2⟩ :=
      goRules_err_exists g.rules (g.rules.map Prod.fst) e he
    refine ⟨ctx, n2, r2, hmem2, hocc2, hcon2, ?_, ?_⟩
    · exact he2 ▸ validate_err_of g e he
    · refine ⟨"undefined symbol " ++ squote, squote ++ " referenced in rule " ++ squote,
        squote, ?_⟩
      simp [undefinedSymbolMessage, String.append_assoc]

/-- Witness for C2: the grammar `{A: Seq[Symbol(missing)]}` produces the
canonical undefined-symbol failure. -/
theorem c2_validate_err_of_undefined_witness :
    ∃ ctx n2 r2, (ctx, r2) ∈ gUndefSample.rules ∧ OccursSym n2 r2 ∧
      (gUndefSample.rules.map Prod.fst).contains n2 = false ∧
      validate gUndefSample = .error ⟨undefinedSymbolMessage n2 ctx⟩ ∧
      ∃ s1 s2 s3, undefinedSymbolMessage n2 ctx = s1 ++ n2 ++ s2 ++ ctx ++ s3 :=
  c2_validate_err_of_undefined gUndefSample "A" (seqR [symR "missing"]) "missing"
    (List.mem_cons_self _ _)
    (OccursSym.in_members .Seq (Or.inr rfl) none none none none none none
      [symR "missing"] (symR "missing") (List.mem_cons_self _ _)
      (OccursSym.here none none none none none none))
    rfl

/-- Counterexample for C2 as stated: this grammar contains a `Symbol` rule
whose name `ghost` is not a key of `rules` (it sits inside `Token` content),
yet `validate` succeeds. -/
theorem c2_counterexample :
    gTokUndef.rules = [("A", Rule.mk .Token none none
      (some (Rule.mk .Symbol none (some "ghost") none none none none none))
      none none none none)] ∧
    ("ghost" ∈ gTokUndef.rules.map Prod.fst → False) ∧
    validate gTokUndef = .ok () := by
  refine ⟨rfl, ?_, ?_⟩
  · intro h
    simp [gTokUndef, mkGrammar] at h
  · simp [validate, check_undefined_symbols, check_undefined_symbols.goRules,
      check_rule_symbols, check_unreachable_rules, reachLoop, lookupRule,
      collect_referenced_symbols, inline_contains, gTokUndef, mkGrammar, tokenR, symR,
      Bind.bind, Except.bind]

/-- Claim C7, amended: an undefined symbol occurring at any position reached
by Pass A's walk (through `Choice`/`Seq` members and the content of
`Repeat`, `Repeat1`, `Prec`, `PrecLeft`, `PrecRight`, `Field`, `Alias` - but
not `PrecDynamic`, which the walk treats as a leaf) makes
`check_rule_symbols` fail with the canonical message. -/
theorem c7_check_detects_occurrence (r : Rule) (n : String) (d : List String)
    (ctx : String) (hocc : OccursSym n r) (hcon : d.contains n = false) :
    ∃ n2, d.contains n2 = false ∧
      check_rule_symbols r d ctx = .error ⟨undefinedSymbolMessage n2 ctx⟩ := by
  have hne := check_ne_ok_of_occurs n r d ctx hocc hcon
  rcases except_ok_or_error (check_rule_symbols r d ctx) with hok | ⟨e, he⟩
  · exact absurd hok hne
  · obtain ⟨n2, _hocc2, hcon2, he2⟩ := check_err_exists r d ctx e he
    exact ⟨n2, hcon2, he2 ▸ he⟩

/-- Witness for C7: an undefined symbol nested under `Choice` inside
`Repeat1` content is detected. -/
theorem c7_check_detects_occurrence_witness :
    ∃ n2, (["A"] : List String).contains n2 = false ∧
      check_rule_symbols (.mk .Repeat1 none none (some (choiceR [symR "zzz"])) none none none none)
        ["A"] "A" = .error ⟨undefinedSymbolMessage n2 "A"⟩ :=
  c7_check_detects_occurrence _ "zzz" ["A"] "A"
    (OccursSym.in_content .Repeat1 (by decide) none none none none none none _
      (OccursSym.in_members .Choice (Or.inl rfl) none none none none none none
        [symR "zzz"] (symR "zzz") (List.mem_cons_self _ _)
        (OccursSym.here none none none none none none)))
    rfl

/-- Counterexample for C7 as stated: `PrecDynamic` is a `Prec`-family
wrapper, but an undefined symbol inside its content is not detected -
`validate` succeeds on this grammar. -/
theorem c7_counterexample :
    gPDUndef.rules = [("A", Rule.mk .PrecDynamic (some (.Integer 1)) none
      (some (Rule.mk .Symbol none (some "ghost") none none none none none))
      none none none none)] ∧
    ("ghost" ∈ gPDUndef.rules.map Prod.fst → False) ∧
    validate gPDUndef = .ok () := by
  refine ⟨rfl, ?_, ?_⟩
  · intro h
    simp [gPDUndef, mkGrammar] at h
  · simp [validate, check_undefined_symbols, check_undefined_symbols.goRules,
      check_rule_symbols, check_unreachable_rules, reachLoop, lookupRule,
      collect_referenced_symbols, inline_contains, gPDUndef, mkGrammar, precDynR, symR,
      Bind.bind, Except.bind]

/-- Claim C5: a rule is warned as unreachable exactly when its name is a key
of `rules`, is absent from the visited set produced by the worklist walk
from the entry point (the first key), and is not listed in `inline`.
Concretely, in `{A: Symbol(B), B: Blank, C: Blank}` with entry point `A`,
only `C` is warned, and declaring `C` inline suppresses that warning. -/
theorem c5_unreachable_characterisation :
    (∀ (g : Grammar) (e0 : String) (r0 : Rule) (rest : List (String × Rule)),
      g.rules = (e0, r0) :: rest →
      ∀ nm, ∃ w, check_unreachable_rules g = .ok w ∧
        (nm ∈ w ↔ nm ∈ g.rules.map Prod.fst ∧
          nm ∉ reachLoop g.rules [] [e0] ∧ inline_contains g nm = false)) ∧
    check_unreachable_rules gABC = .ok ["C"] ∧
    check_unreachable_rules gABCinl = .ok [] := by
  refine ⟨?_, ?_, ?_⟩
  · intro g e0 r0 rest hg nm
    refine ⟨(g.rules.map Prod.fst).filter (fun n2 =>
      !(reachLoop g.rules [] [e0]).contains n2 && !inline_contains g n2), ?_, ?_⟩
    · simp [check_unreachable_rules, hg]
    · simp only [List.mem_filter, Bool.and_eq_true, Bool.not_eq_true',
        List.elem_eq_mem, decide_eq_false_iff_not]
  · simp [check_unreachable_rules, reachLoop, lookupRule, collect_referenced_symbols,
      inline_contains, gABC, mkGrammar, symR, blankR]
  · simp [check_unreachable_rules, reachLoop, lookupRule, collect_referenced_symbols,
      inline_contains, gABCinl, mkGrammarInline, symR, blankR]

/-- Witness for C5: instantiating the characterisation on the spec's
three-rule example shows `B` is visited and only `C` is warned. -/
theorem c5_unreachable_characterisation_witness :
    ∃ w, check_unreachable_rules gABC = .ok w ∧
      ("C" ∈ w ↔ "C" ∈ gABC.rules.map Prod.fst ∧
        "C" ∉ reachLoop gABC.rules [] ["A"] ∧ inline_contains gABC "C" = false) :=
  c5_unreachable_characterisation.1 gABC "A" (symR "B")
    [("B", blankR), ("C", blankR)] rfl "C"

/-- Claim C6: `validate` terminates and succeeds on cyclic rule graphs: the
self-referential grammar `{H: Symbol(H)}` and a mutually recursive pair both
validate, and the worklist walk on the self-loop stops after visiting `H`
once. -/
theorem c6_validate_terminates_on_cycles :
    validate gH = .ok () ∧
    validate gMutual = .ok () ∧
    reachLoop gH.rules [] ["H"] = ["H"] := by
  refine ⟨?_, ?_, ?_⟩
  · simp [validate, check_undefined_symbols, check_undefined_symbols.goRules,
      check_rule_symbols, check_unreachable_rules, reachLoop, lookupRule,
      collect_referenced_symbols, inline_contains, gH, mkGrammar, symR,
      Bind.bind, Except.bind]
  · simp [validate, check_undefined_symbols, check_undefined_symbols.goRules,
      check_rule_symbols, check_unreachable_rules, reachLoop, lookupRule,
      collect_referenced_symbols, inline_contains, gMutual, mkGrammar, symR,
      Bind.bind, Except.bind]
  · simp [reachLoop, lookupRule, collect_referenced_symbols, gH, mkGrammar, symR]

mutual

/-- The code's left-recursion test agrees with the spec-side predicate on
every rule. -/
theorem left_rec_eq_spec : ∀ (r : Rule) (t : String),
    has_immediate_left_recursion r t = specLeftRecursive t r
  | .mk .Symbol v (some n) c ms nd fl cn, t => by
    simp [has_immediate_left_recursion, specLeftRecursive]
  | .mk .Symbol v none c ms nd fl cn, t => by
    simp [has_immediate_left_recursion, specLeftRecursive]
  | .mk .Seq v nm c (some []) nd fl cn, t => by
    simp [has_immediate_left_recursion, specLeftRecursive]
  | .mk .Seq v nm c (some (first :: restm)) nd fl cn, t => by
    simp only [has_immediate_left_recursion, specLeftRecursive]
    exact left_rec_eq_spec first t
  | .mk .Seq v nm c none nd fl cn, t => by
    simp [has_immediate_left_recursion, specLeftRecursive]
  | .mk .Choice v nm c (some ms) nd fl cn, t => by
    simp only [has_immediate_left_recursion, specLeftRecursive]
    exact left_rec_any_eq_spec ms t
  | .mk .Choice v nm c none nd fl cn, t => by
    simp [has_immediate_left_recursion, specLeftRecursive]
  | .mk .Prec v nm (some c) ms nd fl cn, t2 => by
    simp only [has_immediate_left_recursion, specLeftRecursive]
    exact left_rec_eq_spec c t2
  | .mk .Prec v nm none ms nd fl cn, t2 => by
    simp [has_immediate_left_recursion, specLeftRecursive]
  | .mk .PrecLeft v nm (some c) ms nd fl cn, t2 => by
    simp only [has_immediate_left_recursion, specLeftRecursive]
    exact left_rec_eq_spec c t2
  | .mk .PrecLeft v nm none ms nd fl cn, t2 => by
    simp [has_immediate_left_recursion, specLeftRecursive]
  | .mk .PrecRight v nm (some c) ms nd fl cn, t2 => by
    simp only [has_immediate_left_recursion, specLeftRecursive]
    exact left_rec_eq_spec c t2
  | .mk .PrecRight v nm none ms nd fl cn, t2 => by
    simp [has_immediate_left_recursion, specLeftRecursive]
  | .mk .Field v nm (some c) ms nd fl cn, t2 => by
    simp only [has_immediate_left_recursion, specLeftRecursive]
    exact left_rec_eq_spec c t2
  | .mk .Field v nm none ms nd fl cn, t2 => by
    simp [has_immediate_left_recursion, specLeftRecursive]
  | .mk .Alias v nm (some c) ms nd fl cn, t2 => by
    simp only [has_immediate_left_recursion, specLeftRecursive]
    exact left_rec_eq_spec c t2
  | .mk .Alias v nm none ms nd fl cn, t2 => by
    simp [has_immediate_left_recursion, specLeftRecursive]
  | .mk .Blank v nm c ms nd fl cn, t2 => by
    simp [has_immediate_left_recursion, specLeftRecursive]
  | .mk .String v nm c ms nd fl cn, t2 => by
    simp [has_immediate_left_recursion, specLeftRecursive]
  | .mk .Pattern v nm c ms nd fl cn, t2 => by
    simp [has_immediate_left_recursion, specLeftRecursive]
  | .mk .Repeat v nm c ms nd fl cn, t2 => by
    simp [has_immediate_left_recursion, specLeftRecursive]
  | .mk .Repeat1 v nm c ms nd fl cn, t2 => by
    simp [has_immediate_left_recursion, specLeftRecursive]
  | .mk .PrecDynamic v nm c ms nd fl cn, t2 => by
    simp [has_immediate_left_recursion, specLeftRecursive]
  | .mk .Token v nm c ms nd fl cn, t2 => by
    simp [has_immediate_left_recursion, specLeftRecursive]
  | .mk .ImmediateToken v nm c ms nd fl cn, t2 => by
    simp [has_immediate_left_recursion, specLeftRecursive]
  | .mk .Reserved v nm c ms nd fl cn, t2 => by
    simp [has_immediate_left_recursion, specLeftRecursive]

/-- Member-list version of `left_rec_eq_spec`. -/
theorem left_rec_any_eq_spec : ∀ (ms : List Rule) (t : String),
    has_immediate_left_recursion.anyMember ms t = specLeftRecursive.goAny t ms
  | [], t => rfl
  | m :: rest, t => by
    rw [show has_immediate_left_recursion.anyMember (m :: rest) t =
      (has_immediate_left_recursion m t || has_immediate_left_recursion.anyMember rest t)
      from rfl]
    rw [show specLeftRecursive.goAny t (m :: rest) =
      (specLeftRecursive t m || specLeftRecursive.goAny t rest) from rfl]
    rw [left_rec_eq_spec m t, left_rec_any_eq_spec rest t]

end

/-- Membership in the left-recursion report list of a rule sequence. -/
theorem mem_left_goRules (entries : List (String × Rule)) (nm : String) :
    nm ∈ check_left_recursion.goRules entries ↔
      ∃ r, (nm, r) ∈ entries ∧ has_immediate_left_recursion r nm = true := by
  induction entries with
  | nil => simp [check_left_recursion.goRules]
  | cons q rest ih =>
    obtain ⟨k, r⟩ := q
    rw [show check_left_recursion.goRules ((k, r) :: rest) =
      (if has_immediate_left_recursion r k then k :: check_left_recursion.goRules rest
       else check_left_recursion.goRules rest) from rfl]
    by_cases h : has_immediate_left_recursion r k = true
    · rw [if_pos h]
      constructor
      · intro hmem
        rcases List.mem_cons.mp hmem with rfl | hin
        · exact ⟨r, List.mem_cons_self _ _, h⟩
        · obtain ⟨r2, hr2, hp⟩ := ih.mp hin
          exact ⟨r2, List.mem_cons_of_mem _ hr2, hp⟩
      · rintro ⟨r2, hr2, hp⟩
        rcases List.mem_cons.mp hr2 with heq | hin
        · exact List.mem_cons.mpr (Or.inl (congrArg Prod.fst heq))
        · exact List.mem_cons.mpr (Or.inr (ih.mpr ⟨r2, hin, hp⟩))
    · rw [if_neg h]
      constructor
      · intro hmem
        obtain ⟨r2, hr2, hp⟩ := ih.mp hmem
        exact ⟨r2, List.mem_cons_of_mem _ hr2, hp⟩
      · rintro ⟨r2, hr2, hp⟩
        rcases List.mem_cons.mp hr2 with heq | hin
        · have h1 : nm = k := congrArg Prod.fst heq
          have h2 : r2 = r := congrArg Prod.snd heq
          subst h1
          subst h2
          exact absurd hp h
        · exact ih.mpr ⟨r2, hin, hp⟩

/-- Claim C4: the left-recursion pass reports a rule exactly when the
claim's recursive predicate holds of its body (`Symbol` equal to the target;
`Seq` via its first member; `Choice` via any member; `Prec`/`PrecLeft`/
`PrecRight`/`Field`/`Alias` via the wrapped content; nothing else); the spec
example `E` is reported and `F` is not. -/
theorem c4_left_recursion_reports :
    (∀ (r : Rule) (t : String),
      has_immediate_left_recursion r t = specLeftRecursive t r) ∧
    (∀ (g : Grammar) (nm : String),
      nm ∈ check_left_recursion g ↔
        ∃ r, (nm, r) ∈ g.rules ∧ specLeftRecursive nm r = true) ∧
    check_left_recursion gEF = ["E"] := by
  refine ⟨left_rec_eq_spec, ?_, ?_⟩
  · intro g nm
    rw [show check_left_recursion g = check_left_recursion.goRules g.rules from rfl,
      mem_left_goRules]
    constructor
    · rintro ⟨r, hr, hp⟩
      exact ⟨r, hr, by rw [← left_rec_eq_spec]; exact hp⟩
    · rintro ⟨r, hr, hp⟩
      exact ⟨r, hr, by rw [left_rec_eq_spec]; exact hp⟩
  · rfl

/-- Membership in the precedence warning list of a rule sequence. -/
theorem mem_prec_goRules (entries : List (String × Rule)) (nm : String) (ls : List Int) :
    (nm, ls) ∈ check_precedence.goRules entries ↔
      ∃ r, (nm, r) ∈ entries ∧ ls = collect_precedence_levels r [] ∧ ls.length > 1 := by
  induction entries with
  | nil => simp [check_precedence.goRules]
  | cons q rest ih =>
    obtain ⟨k, r⟩ := q
    rw [show check_precedence.goRules ((k, r) :: rest) =
      (if (collect_precedence_levels r []).length > 1
       then (k, collect_precedence_levels r []) :: check_precedence.goRules rest
       else check_precedence.goRules rest) from rfl]
    by_cases h : (collect_precedence_levels r []).length > 1
    · rw [if_pos h]
      constructor
      · intro hmem
        rcases List.mem_cons.mp hmem with heq | hin
        · have h1 : nm = k := congrArg Prod.fst heq
          have h2 : ls = collect_precedence_levels r [] := congrArg Prod.snd heq
          subst h1
          exact ⟨r, List.mem_cons_self _ _, h2, by rw [h2]; exact h⟩
        · obtain ⟨r2, hr2, hp, hl⟩ := ih.mp hin
          exact ⟨r2, List.mem_cons_of_mem _ hr2, hp, hl⟩
      · rintro ⟨r2, hr2, hp, hl⟩
        rcases List.mem_cons.mp hr2 with heq | hin
        · have h1 : nm = k := congrArg Prod.fst heq
          have h2 : r2 = r := congrArg Prod.snd heq
          subst h1
          subst h2
          exact List.mem_cons.mpr (Or.inl (by rw [hp]))
        · exact List.mem_cons.mpr (Or.inr (ih.mpr ⟨r2, hin, hp, hl⟩))
    · rw [if_neg h]
      constructor
      · intro hmem
        obtain ⟨r2, hr2, hp, hl⟩ := ih.mp hmem
        exact ⟨r2, List.mem_cons_of_mem _ hr2, hp, hl⟩
      · rintro ⟨r2, hr2, hp, hl⟩
        rcases List.mem_cons.mp hr2 with heq | hin
        · have h2 : r2 = r := congrArg Prod.snd heq
          subst h2
          rw [hp] at hl
          exact absurd hl h
        · exact ih.mpr ⟨r2, hin, hp, hl⟩

/-- Claim C3, amended: the precedence pass warns for a rule exactly when its
body accumulates more than one precedence value occurrence - repetitions of
the same numeric level included (the code compares the length of the
collected vector, without deduplication).  A rule with levels 1 and 2 is
reported with `[1, 2]` in the order encountered; a rule wrapping level 1
twice is reported with `[1, 1]`. -/
theorem c3_precedence_warnings :
    (∀ (g : Grammar) (nm : String) (ls : List Int),
      (nm, ls) ∈ check_precedence g ↔
        ∃ r, (nm, r) ∈ g.rules ∧ ls = collect_precedence_levels r [] ∧
          ls.length > 1) ∧
    check_precedence gTwoLevels = [("G", [1, 2])] ∧
    check_precedence gOnes = [("G", [1, 1])] := by
  refine ⟨?_, rfl, rfl⟩
  intro g nm ls
  exact mem_prec_goRules g.rules nm ls

/-- Counterexample for C3 as stated: the rule of `gOnes` uses only the
single precedence level 1 (twice), so by the claim it must not be reported,
yet the pass reports it with levels `[1, 1]`. -/
theorem c3_counterexample :
    (∀ l ∈ collect_precedence_levels (precLeftR 1 (precLeftR 1 blankR)) [], l = 1) ∧
    check_precedence gOnes = [("G", [1, 1])] := by
  constructor
  · intro l hl
    have : collect_precedence_levels (precLeftR 1 (precLeftR 1 blankR)) [] = [1, 1] := rfl
    rw [this] at hl
    rcases List.mem_cons.mp hl with rfl | hl2
    · rfl
    · rcases List.mem_cons.mp hl2 with rfl | hl3
      · rfl
      · cases hl3
  · rfl

/-- Claim C8: `precedence()` returns the numeric level for the
`Prec`-family discriminants (`Prec`, `PrecLeft`, `PrecRight`, `PrecDynamic`)
when an integer value is present, and `None` for every other variant. -/
theorem c8_precedence_accessor (r : Rule) (i : Int) :
    ((r.rule_type = RuleType.Prec ∨ r.rule_type = RuleType.PrecLeft ∨
      r.rule_type = RuleType.PrecRight ∨ r.rule_type = RuleType.PrecDynamic) →
      r.value = some (.Integer i) → r.precedence = some i) ∧
    (¬(r.rule_type = RuleType.Prec ∨ r.rule_type = RuleType.PrecLeft ∨
       r.rule_type = RuleType.PrecRight ∨ r.rule_type = RuleType.PrecDynamic) →
      r.precedence = none) := by
  obtain ⟨rt, v, nm, c, ms, nd, fl, cn⟩ := r
  constructor
  · intro hfam hv
    cases rt <;> simp_all [Rule.precedence, Rule.rule_type, Rule.value]
  · intro hn
    cases rt <;> simp_all [Rule.precedence, Rule.rule_type]

/-- Witness for C8: `PrecLeft` with value 3 yields `some 3`; a `Symbol` rule
yields `none`. -/
theorem c8_precedence_accessor_witness :
    (Rule.mk .PrecLeft (some (.Integer 3)) none none none none none none).precedence = some 3 ∧
    (Rule.mk .Symbol none (some "x") none none none none none).precedence = none :=
  ⟨(c8_precedence_accessor (Rule.mk .PrecLeft (some (.Integer 3)) none none none none none none) 3).1
      (by decide) rfl,
   (c8_precedence_accessor (Rule.mk .Symbol none (some "x") none none none none none) 0).2
      (by decide)⟩

/-- Claim C9: a `Symbol` rule with an absent name is skipped by the
undefined-symbol check, contributes no edge to the reachability walk,
satisfies `is_symbol` and has no `symbol_name`; a grammar containing such a
node validates. -/
theorem c9_nameless_symbol (v : Option RuleValue) (c : Option Rule)
    (ms : Option (List Rule)) (nd : Option Bool) (fl cn : Option String)
    (d : List String) (ctx : String) (syms : List String) :
    check_rule_symbols (.mk .Symbol v none c ms nd fl cn) d ctx = .ok () ∧
    collect_referenced_symbols (.mk .Symbol v none c ms nd fl cn) syms = syms ∧
    (Rule.mk .Symbol v none c ms nd fl cn).is_symbol = true ∧
    (Rule.mk .Symbol v none c ms nd fl cn).symbol_name = none ∧
    validate gNameless = .ok () := by
  refine ⟨rfl, rfl, rfl, rfl, ?_⟩
  simp [validate, check_undefined_symbols, check_undefined_symbols.goRules,
    check_rule_symbols, check_rule_symbols.goMembers, check_unreachable_rules, reachLoop,
    lookupRule, collect_referenced_symbols, collect_referenced_symbols.goMembers,
    inline_contains, gNameless, mkGrammar, seqR, strR, Bind.bind, Except.bind]

/-- Claim C10: the undefined-symbol walk and the reachability walk treat
`Token`, `ImmediateToken`, `Reserved` and `PrecDynamic` as leaves: the
check succeeds and nothing is collected, whatever the content; grammars
hiding an undefined symbol under each of these wrappers validate, and a rule
referenced only from inside `Token` content is warned unreachable. -/
theorem c10_token_like_leaves (rt : RuleType)
    (hrt : rt = RuleType.Token ∨ rt = RuleType.ImmediateToken ∨
      rt = RuleType.Reserved ∨ rt = RuleType.PrecDynamic)
    (v : Option RuleValue) (nm : Option String) (c : Option Rule)
    (ms : Option (List Rule)) (nd : Option Bool) (fl cn : Option String)
    (d : List String) (ctx : String) (syms : List String) :
    check_rule_symbols (.mk rt v nm c ms nd fl cn) d ctx = .ok () ∧
    collect_referenced_symbols (.mk rt v nm c ms nd fl cn) syms = syms ∧
    validate gTokUndef = .ok () ∧
    validate gImmUndef = .ok () ∧
    validate gResUndef = .ok () ∧
    validate gPDUndef = .ok () ∧
    check_unreachable_rules gTokHidden = .ok ["B"] := by
  refine ⟨?_, ?_, ?_, ?_, ?_, ?_, ?_⟩
  · rcases hrt with rfl | rfl | rfl | rfl <;> rfl
  · rcases hrt with rfl | rfl | rfl | rfl <;> rfl
  · simp [validate, check_undefined_symbols, check_undefined_symbols.goRules,
      check_rule_symbols, check_unreachable_rules, reachLoop, lookupRule,
      collect_referenced_symbols, inline_contains, gTokUndef, mkGrammar, tokenR, symR,
      Bind.bind, Except.bind]
  · simp [validate, check_undefined_symbols, check_undefined_symbols.goRules,
      check_rule_symbols, check_unreachable_rules, reachLoop, lookupRule,
      collect_referenced_symbols, inline_contains, gImmUndef, mkGrammar, immTokenR, symR,
      Bind.bind, Except.bind]
  · simp [validate, check_undefined_symbols, check_undefined_symbols.goRules,
      check_rule_symbols, check_unreachable_rules, reachLoop, lookupRule,
      collect_referenced_symbols, inline_contains, gResUndef, mkGrammar, reservedR, symR,
      Bind.bind, Except.bind]
  · simp [validate, check_undefined_symbols, check_undefined_symbols.goRules,
      check_rule_symbols, check_unreachable_rules, reachLoop, lookupRule,
      collect_referenced_symbols, inline_contains, gPDUndef, mkGrammar, precDynR, symR,
      Bind.bind, Except.bind]
  · simp [check_unreachable_rules, reachLoop, lookupRule, collect_referenced_symbols,
      inline_contains, gTokHidden, mkGrammar, tokenR, symR, blankR]

/-- Witness for C10: instantiated at the `Token` wrapper around a symbol. -/
theorem c10_token_like_leaves_witness :
    check_rule_symbols (.mk .Token none none (some (symR "q")) none none none none)
      ["A"] "A" = .ok () ∧
    collect_referenced_symbols (.mk .Token none none (some (symR "q")) none none none none)
      ["s"] = ["s"] ∧
    validate gTokUndef = .ok () ∧
    validate gImmUndef = .ok () ∧
    validate gResUndef = .ok () ∧
    validate gPDUndef = .ok () ∧
    check_unreachable_rules gTokHidden = .ok ["B"] :=
  c10_token_like_leaves .Token (Or.inl rfl) none none (some (symR "q")) none none none
    none ["A"] "A" ["s"]
